import Mathlib

/-!
Verification of the context-biasing graph of `runtime/core/decoder/context_graph.cc`
(namespace `wenet`): phrase tokenization against a symbol table
(`SplitUTF8StringToWords`), construction of the weighted biasing automaton
(`BuildContextGraph`) and the single-step walker (`GetNextState`).

Strings are modelled at codepoint granularity: a string is a `List Nat` of
Unicode scalar values. Byte-level facts of the C++ `std::string` representation
(`context.size()`, `word[0]`) are recovered through the UTF-8 encoding length
and leading byte of each codepoint. Arc weights (`float` in the source) are
modelled as rationals; every weight the code manipulates is produced by the
additions, negations and multiplications that the model mirrors exactly.

The call to `fst::Determinize` (OpenFST) is an external collaborator of this
core, out of the repository; theorems about the built automaton are stated on
the automaton the repository's own code constructs, and the concrete automata
used as inputs to walker theorems are checked deterministic where relevant.
-/

namespace Wenet

/-- A string as its list of Unicode scalar values (codepoints). -/
abbrev Str := List Nat

/-- Number of bytes of the UTF-8 encoding of one codepoint. -/
def utf8CharLen (c : Nat) : Nat :=
  if c < 0x80 then 1 else if c < 0x800 then 2 else if c < 0x10000 then 3 else 4

/-- Modelled from the spec: `std::string::size()` of the phrase, i.e. the byte
length of its UTF-8 encoding (the `std::string` byte buffer is not in `src/`). -/
def byteSize (s : Str) : Nat := (s.map utf8CharLen).sum

/-- Leading byte of the UTF-8 encoding of one codepoint. -/
def leadByte (c : Nat) : Nat :=
  if c < 0x80 then c
  else if c < 0x800 then 0xC0 + c / 0x40
  else if c < 0x10000 then 0xE0 + c / 0x1000
  else 0xF0 + c / 0x40000

/-- First byte of the UTF-8 encoding of a string, `word[0]` in the source
(never applied to an empty word on the modelled paths). -/
def firstByte (w : Str) : Nat :=
  match w with
  | [] => 0
  | c :: _ => leadByte c

/-- Modelled from the spec: the reserved leading-space marker `kSpaceSymbol`
("▁", U+2581) of `utils/string.h`, which is not in `src/`. -/
def spaceCp : Nat := 0x2581

/-- Modelled from the spec: `IsAlpha` of `utils/string.h` (not in `src/`) —
every byte of the string is an ASCII letter. -/
def isAlphaS (w : Str) : Bool :=
  w.all (fun c => (65 ≤ c && c ≤ 90) || (97 ≤ c && c ≤ 122))

/-- Modelled from the spec: `Trim` of `utils/string.h` (not in `src/`) —
strip leading and trailing space characters. -/
def trim (s : Str) : Str :=
  ((s.dropWhile (· = 32)).reverse.dropWhile (· = 32)).reverse

/-- Modelled from the spec: the shared vocabulary (`fst::SymbolTable`, an
external collaborator) as a finite association of token strings to ids. -/
abbrev SymTab := List (Str × Int)

/-- Modelled from the spec: `SymbolTable::Find`, id of a token string or the
sentinel `-1` when absent. -/
def findId (st : SymTab) (w : Str) : Int :=
  match st.find? (fun e => e.1 == w) with
  | some e => e.2
  | none => -1

/-- The configuration record `ContextConfig`. -/
structure Cfg where
  max_context_length : Nat
  max_contexts : Nat
  context_score : Rat
  incremental_context_score : Rat

/-- One pass of the nested segmentation loops of `SplitUTF8StringToWords`
(context_graph.cc:142-178), written with explicit fuel because the source
loop is not structurally decreasing: `start` is the outer position, `e` the
inner end position, `beginning` the beginning-of-word flag, `acc` the words
emitted so far and `noOov` the running fully-resolved flag. `none` means the
fuel ran out before the loops finished. -/
def splitLoop (st : SymTab) (chars : List Nat) :
    Nat → Nat → Nat → Bool → List Str → Bool → Option (List Str × Bool)
  | 0, _, _, _, _, _ => none
  | fuel + 1, start, e, beginning, acc, noOov =>
    if e ≤ start then
      if start < chars.length then
        splitLoop st chars fuel start chars.length beginning acc noOov
      else some (acc, noOov)
    else
      let word0 := (chars.drop start).take (e - start)
      if word0 = [32] then
        splitLoop st chars fuel e (e - 1) true acc noOov
      else
        let word := if isAlphaS word0 && beginning then spaceCp :: word0 else word0
        if findId st word ≠ -1 then
          splitLoop st chars fuel e (e - 1) false (acc ++ [word]) noOov
        else if e = start + 1 then
          if firstByte word = 0xE2 then
            splitLoop st chars fuel start chars.length false (acc ++ [[spaceCp]]) noOov
          else
            splitLoop st chars fuel (start + 1) (e - 1) beginning acc false
        else
          splitLoop st chars fuel start (e - 1) beginning acc noOov

/-- `ContextGraph::SplitUTF8StringToWords` (context_graph.cc:133-180): split a
phrase into vocabulary tokens by greedy longest match; the Bool is `no_oov`. -/
def SplitUTF8StringToWords (st : SymTab) (s : Str) (fuel : Nat) :
    Option (List Str × Bool) :=
  let chars := trim s
  splitLoop st chars fuel 0 chars.length true [] true

/-- An arc of the automaton: input label (= output label), weight value and
destination state, as in `fst::StdArc`. -/
structure Arc where
  ilabel : Int
  weight : Rat
  nextstate : Nat
deriving DecidableEq, Repr

/-- The weighted automaton: number of states, global arc list in insertion
order (source state paired with the arc) and the states of final weight One. -/
structure Fst where
  numStates : Nat
  arcs : List (Nat × Arc)
  finals : List Nat
deriving DecidableEq, Repr

/-- Outgoing arcs of a state in insertion order, as `fst::ArcIterator`
enumerates them. -/
def arcsFrom (f : Fst) (s : Nat) : List Arc :=
  (f.arcs.filter (fun pa => pa.1 == s)).map Prod.snd

/-- `graph_->Final(s) == fst::StdArc::Weight::One()`. -/
def isFinalOne (f : Fst) (s : Nat) : Bool := f.finals.contains s

/-- The automaton right after context_graph.cc:40-44: one state, state 0 start
and final. -/
def initFst : Fst := ⟨1, [], [0]⟩

/-- The score of the i-th token of a phrase (context_graph.cc:68-73): the
base score times the codepoint count, overwritten with the bare base score
when the token is alphabetic or begins with the first byte of `kSpaceSymbol`. -/
def wordScore (cfg : Cfg) (i : Nat) (w : Str) : Rat :=
  if isAlphaS w || firstByte w = 0xE2 then
    (i : Rat) * cfg.incremental_context_score + cfg.context_score
  else
    ((i : Rat) * cfg.incremental_context_score + cfg.context_score) * (w.length : Rat)

/-- The per-phrase loop of `BuildContextGraph` (context_graph.cc:63-84):
`prev` is `prev_state`, `i` the token index, `esc` the running
`escape_score`; each step adds the labeled arc, then for `i > 0` the escape
arc `(prev, 0, -esc, 0)`, a fresh interior state for every token but the
last (whose destination is state 0). -/
def addPhraseGo (cfg : Cfg) (st : SymTab) :
    Fst → Nat → Nat → Rat → List Str → Fst
  | f, _, _, _, [] => f
  | f, prev, i, esc, w :: rest =>
    let score := wordScore cfg i w
    let next : Nat := if rest = [] then 0 else f.numStates
    let f1 : Fst := if rest = [] then f else { f with numStates := f.numStates + 1 }
    let f2 : Fst := { f1 with arcs := f1.arcs ++ [(prev, ⟨findId st w, score, next⟩)] }
    let f3 : Fst :=
      if 0 < i then { f2 with arcs := f2.arcs ++ [(prev, ⟨0, -esc, 0⟩)] } else f2
    addPhraseGo cfg st f3 next (i + 1) (esc + score) rest

/-- Add one tokenized phrase to the automaton, starting from state 0. -/
def addPhrase (cfg : Cfg) (st : SymTab) (f : Fst) (ws : List Str) : Fst :=
  addPhraseGo cfg st f 0 0 0 ws

/-- The phrase loop of `BuildContextGraph` (context_graph.cc:47-85): skip
phrases whose byte length exceeds `max_context_length`, stop once the
incremented count exceeds `max_contexts`, skip phrases whose segmentation
reports an out-of-vocabulary unit, add the rest. `none` marks a run whose
segmentation never finishes (the source loops forever there). -/
def buildGo (cfg : Cfg) (st : SymTab) (fuel : Nat) :
    Fst → Nat → List Str → Option Fst
  | f, _, [] => some f
  | f, count, ctx :: rest =>
    if byteSize ctx > cfg.max_context_length then
      buildGo cfg st fuel f count rest
    else if count + 1 > cfg.max_contexts then some f
    else
      match SplitUTF8StringToWords st (trim ctx) fuel with
      | none => none
      | some (words, noOov) =>
        if noOov = false then buildGo cfg st fuel f (count + 1) rest
        else buildGo cfg st fuel (addPhrase cfg st f words) (count + 1) rest

/-- The automaton `BuildContextGraph` constructs before handing it to the
external `fst::Determinize` (context_graph.cc:40-85). -/
def buildOfst (cfg : Cfg) (st : SymTab) (fuel : Nat) (ctxs : List Str) :
    Option Fst :=
  buildGo cfg st fuel initFst 0 ctxs

/-- The `ContextGraph` object state that matters to lookups: the automaton
held by `graph_`, absent (`none`) when never built or reset. -/
structure ContextGraph where
  graph : Option Fst
deriving DecidableEq, Repr

/-- A freshly constructed `ContextGraph`: `graph_` holds nothing. -/
def ContextGraph.init : ContextGraph := ⟨none⟩

/-- `ContextGraph::BuildContextGraph` (context_graph.cc:28-89) as a state
transformer of the object: an empty phrase list resets `graph_` and returns
(context_graph.cc:35-38); otherwise the constructed automaton is installed
(its determinization by OpenFST is external to the repository). -/
def BuildContextGraph (cfg : Cfg) (st : SymTab) (fuel : Nat)
    (ctxs : List Str) (_g : ContextGraph) : Option ContextGraph :=
  if ctxs = [] then some ⟨none⟩
  else (buildOfst cfg st fuel ctxs).map (fun f => ⟨some f⟩)

/-- The four values `GetNextState` leaves in its return value and its three
out-parameters. -/
structure StepResult where
  next_state : Nat
  score : Rat
  is_start_boundary : Bool
  is_end_boundary : Bool
deriving DecidableEq, Repr

/-- The first loop of `GetNextState` (context_graph.cc:94-111) over the
outgoing arcs of `cur_state`: an epsilon arc overwrites the score with its
weight and the scan goes on; an arc labeled `word_id` is taken and the scan
breaks; `ns`, `sc`, `sb`, `eb` carry `next_state`, `*score`,
`*is_start_boundary`, `*is_end_boundary`. -/
def scanState (f : Fst) (curState : Nat) (wordId : Int) :
    List Arc → Nat → Rat → Bool → Bool → StepResult
  | [], ns, sc, sb, eb => ⟨ns, sc, sb, eb⟩
  | a :: rest, ns, sc, sb, eb =>
    if a.ilabel = 0 then
      scanState f curState wordId rest ns a.weight sb eb
    else if a.ilabel = wordId then
      ⟨a.nextstate, a.weight,
       if curState = 0 then true else sb,
       if isFinalOne f a.nextstate then true else eb⟩
    else
      scanState f curState wordId rest ns sc sb eb

/-- The second loop of `GetNextState` (context_graph.cc:115-129) over the
outgoing arcs of state 0: an arc labeled `word_id` is taken, its weight added
to `*score`. -/
def scanStart (f : Fst) (curState : Nat) (wordId : Int) :
    List Arc → Rat → Bool → Bool → StepResult
  | [], sc, sb, eb => ⟨0, sc, sb, eb⟩
  | a :: rest, sc, sb, eb =>
    if a.ilabel = wordId then
      ⟨a.nextstate, sc + a.weight,
       if curState = 0 then true else sb,
       if isFinalOne f a.nextstate then true else eb⟩
    else
      scanStart f curState wordId rest sc sb eb

/-- `ContextGraph::GetNextState` (context_graph.cc:91-131): scan `cur_state`,
and unless that produced a nonzero `next_state`, rescan state 0. `score`,
`sb`, `eb` are the values held by the out-parameters on entry. -/
def GetNextState (f : Fst) (curState : Nat) (wordId : Int)
    (score : Rat) (sb eb : Bool) : StepResult :=
  let r1 := scanState f curState wordId (arcsFrom f curState) 0 score sb eb
  if r1.next_state ≠ 0 then r1
  else scanStart f curState wordId (arcsFrom f 0)
    r1.score r1.is_start_boundary r1.is_end_boundary

/-- The arc the first loop of `GetNextState` takes at the scanned state: the
first arc whose label is nonzero and equals `word_id` (a zero-labeled arc is
consumed by the escape branch and never matches). -/
def loop1Match (arcs : List Arc) (t : Int) : Option Arc :=
  arcs.find? (fun a => !(a.ilabel == 0) && a.ilabel == t)

/-- The arc the second loop of `GetNextState` takes: the first arc labeled
`word_id`. -/
def findMatch (arcs : List Arc) (t : Int) : Option Arc :=
  arcs.find? (fun a => a.ilabel == t)

/-- The value `*score` holds after a full non-matching scan of an arc list
that started at `sc`: the weight of the last zero-labeled arc, if any. -/
def baselineScore (arcs : List Arc) (sc : Rat) : Rat :=
  arcs.foldl (fun acc a => if a.ilabel = 0 then a.weight else acc) sc

/-- The arcs `addPhraseGo` appends, with their source states: `n` is the
number of states of the automaton it extends. -/
def phraseArcs (cfg : Cfg) (st : SymTab) :
    Nat → Nat → Nat → Rat → List Str → List (Nat × Arc)
  | _, _, _, _, [] => []
  | n, prev, i, esc, w :: rest =>
    ((prev, ⟨findId st w, wordScore cfg i w, if rest = [] then 0 else n⟩) ::
      (if 0 < i then [(prev, ⟨0, -esc, 0⟩)] else [])) ++
    phraseArcs cfg st (if rest = [] then n else n + 1) (if rest = [] then 0 else n)
      (i + 1) (esc + wordScore cfg i w) rest

/-- How many fresh states a phrase creates: one per token except the last. -/
def grow : List Str → Nat
  | [] => 0
  | _ :: rest => (if rest = [] then 0 else 1) + grow rest

/-- Sum of the scores of the first `k` tokens of a phrase whose first token
has index `i`. -/
def sumScores (cfg : Cfg) : Nat → List Str → Nat → Rat
  | _, _, 0 => 0
  | _, [], _ + 1 => 0
  | i, w :: rest, k + 1 => wordScore cfg i w + sumScores cfg (i + 1) rest k

/-- How many arcs a phrase contributes: a labeled arc per token plus an
escape arc per token after the first. -/
def arcCount (ws : List Str) : Nat := if ws = [] then 0 else 2 * ws.length - 1

/-- The arcs contributed by a list of phrases added in order, starting from
an automaton of `n` states. -/
def phraseSegs (cfg : Cfg) (st : SymTab) : Nat → List (List Str) → List (Nat × Arc)
  | _, [] => []
  | n, ws :: rest => phraseArcs cfg st n 0 0 0 ws ++ phraseSegs cfg st (n + grow ws) rest

/-- The state numbered for a phrase's first interior state, given the
accepted phrases added before it. -/
def baseStateOf (pre : List (List Str)) : Nat := 1 + (pre.map grow).sum

/-- Position in the global arc list where a phrase's arcs start, given the
accepted phrases added before it. -/
def segStartOf (pre : List (List Str)) : Nat := (pre.map arcCount).sum

/-- The arcs of a global arc list leaving state `s`, in order. -/
def srcFilter (l : List (Nat × Arc)) (s : Nat) : List Arc :=
  (l.filter (fun pa => pa.1 == s)).map Prod.snd

/-- The automaton has its start state and every arc leaves an existing
state. -/
def Wf (f : Fst) : Prop :=
  1 ≤ f.numStates ∧ ∀ pa ∈ f.arcs, pa.1 < f.numStates

/-- The accept decisions of the phrase loop of `BuildContextGraph`: the token
lists of the phrases that are actually added, in order. Mirrors `buildGo`
branch for branch. -/
def acceptedGo (cfg : Cfg) (st : SymTab) (fuel : Nat) :
    Nat → List Str → Option (List (List Str))
  | _, [] => some []
  | count, ctx :: rest =>
    if byteSize ctx > cfg.max_context_length then
      acceptedGo cfg st fuel count rest
    else if count + 1 > cfg.max_contexts then some []
    else
      match SplitUTF8StringToWords st (trim ctx) fuel with
      | none => none
      | some (words, noOov) =>
        if noOov = false then acceptedGo cfg st fuel (count + 1) rest
        else (acceptedGo cfg st fuel (count + 1) rest).map (words :: ·)

/-- The phrases accepted by a full build. -/
def acceptedWords (cfg : Cfg) (st : SymTab) (fuel : Nat) (ctxs : List Str) :
    Option (List (List Str)) :=
  acceptedGo cfg st fuel 0 ctxs

/-- Vocabulary of four single-codepoint CJK tokens (each is three UTF-8
bytes, not alphabetic, leading byte 0xE4). -/
def tabCjk : SymTab := [([0x4E00], 1), ([0x4E01], 2), ([0x4E02], 3), ([0x4E03], 4)]

/-- Permissive limits, context_score 3, incremental_context_score 1. -/
def cfgMain : Cfg := ⟨100, 100, 3, 1⟩

/-- The automaton built from the two-token phrases 一丁 and 丂七 over
`tabCjk` with `cfgMain`. -/
def graphTwo : Fst :=
  ⟨3, [(0, ⟨1, 3, 1⟩), (1, ⟨2, 4, 0⟩), (1, ⟨0, -3, 0⟩),
       (0, ⟨3, 3, 2⟩), (2, ⟨4, 4, 0⟩), (2, ⟨0, -3, 0⟩)], [0]⟩

/-- Vocabulary of the single token 丁. -/
def tabOne : SymTab := [([0x4E01], 1)]

/-- Permissive limits, context_score 2, incremental_context_score 0. -/
def cfgOne : Cfg := ⟨100, 100, 2, 0⟩

/-- The automaton built from the single one-token phrase 丁 over `tabOne`
with `cfgOne`. -/
def graphOne : Fst := ⟨1, [(0, ⟨1, 2, 0⟩)], [0]⟩

/-- Limits allowing one context only. -/
def cfgBudget : Cfg := ⟨100, 1, 3, 1⟩

/-- A maximum context length of five bytes. -/
def cfgShort : Cfg := ⟨5, 100, 3, 1⟩

/-- Whether no two arcs of the list share a source state and a label. -/
def noDupLabel : List (Nat × Arc) → Bool
  | [] => true
  | pa :: rest =>
    rest.all (fun qb => !(qb.1 == pa.1 && qb.2.ilabel == pa.2.ilabel)) &&
    noDupLabel rest

/-- Whether the automaton has at most one outgoing arc per (state, label)
pair — the shape `fst::Determinize` guarantees. -/
def deterministicB (f : Fst) : Bool := noDupLabel f.arcs

section Theorems

/-- One segmentation pass on the single out-of-vocabulary codepoint U+2026
(leading UTF-8 byte 0xE2, the same as `kSpaceSymbol`): the source emits a
bare `kSpaceSymbol` token and breaks without advancing `start`, so the loop
returns to the identical position. -/
theorem splitLoop_ellipsis_step (n : Nat) (b : Bool) (acc : List Str) (noOov : Bool) :
    splitLoop [] [0x2026] (n + 1) 0 1 b acc noOov =
      splitLoop [] [0x2026] n 0 1 false (acc ++ [[spaceCp]]) noOov := by
  cases b <;> with_unfolding_all rfl

theorem splitLoop_ellipsis_none (fuel : Nat) :
    ∀ (b : Bool) (acc : List Str) (noOov : Bool),
      splitLoop [] [0x2026] fuel 0 1 b acc noOov = none := by
  induction fuel with
  | zero => intro b acc noOov; rfl
  | succ n ih =>
    intro b acc noOov
    rw [splitLoop_ellipsis_step]
    exact ih false (acc ++ [[spaceCp]]) noOov

/-- C6: refuted on the code — `SplitUTF8StringToWords` does not terminate on
every input. On the phrase consisting of the single codepoint U+2026 (whose
UTF-8 leading byte equals `kSpaceSymbol[0]`) with a vocabulary that does not
contain it, the branch at context_graph.cc:168-171 emits `kSpaceSymbol` and
breaks the inner loop without advancing `start`, so the outer loop re-enters
the identical configuration forever: no amount of fuel completes the run. -/
theorem C6_split_diverges (fuel : Nat) :
    SplitUTF8StringToWords [] [0x2026] fuel = none := by
  show splitLoop [] [0x2026] fuel 0 1 true [] true = none
  exact splitLoop_ellipsis_none fuel true [] true

/-- C1: `BuildContextGraph` on an empty phrase list resets `graph_` to
nothing (context_graph.cc:35-38), and a never-built `ContextGraph` holds no
automaton either; `GetNextState` needs an automaton to scan
(context_graph.cc:94 dereferences `graph_` unconditionally), so the claimed
error-free `(0, 0, false, false)` lookup result is not what the code
produces — the lookup has no automaton at all to return it from. -/
theorem C1_empty_build_resets_graph (cfg : Cfg) (st : SymTab) (fuel : Nat)
    (g : ContextGraph) :
    BuildContextGraph cfg st fuel [] g = some ⟨none⟩ ∧
    ContextGraph.init.graph = none :=
  ⟨rfl, rfl⟩

/-- C2 counterexample: in the automaton built from the single one-token
phrase 丁, state 0 has exactly one arc, labeled 1 with weight 2 and
destination 0; yet `GetNextState(0, 1)` returns score 4, not the arc's
weight alone: because the matched arc's destination is state 0, `next_state`
is still 0 after the first loop, the scan of state 0 runs again and adds the
same weight a second time. The automaton is deterministic, so this shape
survives determinization. -/
theorem C2_counterexample :
    buildOfst cfgOne tabOne 20 [[0x4E01]] = some graphOne ∧
    deterministicB graphOne = true ∧
    arcsFrom graphOne 0 = [⟨1, 2, 0⟩] ∧
    GetNextState graphOne 0 1 0 false false = ⟨0, 4, true, true⟩ ∧
    (4 : Rat) ≠ 2 :=
  ⟨by with_unfolding_all rfl, by with_unfolding_all rfl, by with_unfolding_all rfl,
   by with_unfolding_all rfl, by norm_num⟩

/-- C4 counterexample: with no matching arc and no escape arc anywhere,
`GetNextState` never writes `*score`, so two calls with the same
`(cur_state, word_id)` but different entry values of the score out-parameter
return different score values: the claim's "identical score_delta regardless
of the values the out-parameters hold on entry" fails. -/
theorem C4_counterexample :
    buildOfst cfgOne tabOne 20 [[0x4E01]] = some graphOne ∧
    GetNextState graphOne 0 2 5 false false = ⟨0, 5, false, false⟩ ∧
    GetNextState graphOne 0 2 7 false false = ⟨0, 7, false, false⟩ ∧
    (5 : Rat) ≠ 7 :=
  ⟨by with_unfolding_all rfl, by with_unfolding_all rfl,
   by with_unfolding_all rfl, by norm_num⟩

/-- C5 counterexample: in the automaton of the phrases 一丁 and 丂七, at
state 1 (after 一) token 3 (丂) matches no labeled arc of state 1 but does
match an arc of state 0; the fallback takes it, yet `is_start_boundary`
stays false: the source sets it only when `cur_state == 0`
(context_graph.cc:121-123), which cannot hold on this path, while the claim
says the flag is set because the fresh match starts from state 0. -/
theorem C5_counterexample :
    buildOfst cfgMain tabCjk 20 [[0x4E00, 0x4E01], [0x4E02, 0x4E03]] = some graphTwo ∧
    deterministicB graphTwo = true ∧
    loop1Match (arcsFrom graphTwo 1) 3 = none ∧
    findMatch (arcsFrom graphTwo 0) 3 = some ⟨3, 3, 2⟩ ∧
    GetNextState graphTwo 1 3 0 false false = ⟨2, 0, false, false⟩ :=
  ⟨by with_unfolding_all rfl, by with_unfolding_all rfl, by with_unfolding_all rfl,
   by with_unfolding_all rfl, by with_unfolding_all rfl⟩

/-- C7 counterexample: with `max_contexts = 1`, the phrase 丏 (in-length,
fully tokenizable but out-of-vocabulary) is skipped, yet it consumes the
budget: `++count` runs before the OOV check (context_graph.cc:53), so the
following phrase 一 — resolvable, in-length, and the first acceptable phrase
— is dropped by the budget break and the automaton ends up with no arcs at
all, although built alone the same phrase is represented. -/
theorem C7_counterexample :
    byteSize [0x4E0F] ≤ cfgBudget.max_context_length ∧
    SplitUTF8StringToWords tabCjk [0x4E0F] 20 = some ([], false) ∧
    byteSize [0x4E00] ≤ cfgBudget.max_context_length ∧
    SplitUTF8StringToWords tabCjk [0x4E00] 20 = some ([[0x4E00]], true) ∧
    cfgBudget.max_contexts = 1 ∧
    buildOfst cfgBudget tabCjk 20 [[0x4E0F], [0x4E00]] = some initFst ∧
    initFst.arcs = [] ∧
    buildOfst cfgBudget tabCjk 20 [[0x4E00]] = some ⟨1, [(0, ⟨1, 3, 0⟩)], [0]⟩ :=
  ⟨by decide, by decide, by decide, by decide, by with_unfolding_all rfl,
   by with_unfolding_all rfl, by with_unfolding_all rfl, by with_unfolding_all rfl⟩

/-- C8 counterexample: the length check of context_graph.cc:49 measures
`context.size()` in bytes, not codepoints. The phrase 一丁 has 2 codepoints
— within the limit of 5 the claim reasons with — but 6 UTF-8 bytes, so it is
skipped and the built automaton has no arcs, although the phrase is fully
resolved and the only candidate. -/
theorem C8_counterexample :
    ([0x4E00, 0x4E01] : Str).length = 2 ∧
    2 ≤ cfgShort.max_context_length ∧
    byteSize [0x4E00, 0x4E01] = 6 ∧
    SplitUTF8StringToWords tabCjk [0x4E00, 0x4E01] 20 = some ([[0x4E00], [0x4E01]], true) ∧
    buildOfst cfgShort tabCjk 20 [[0x4E00, 0x4E01]] = some initFst ∧
    initFst.arcs = [] :=
  ⟨by decide, by decide, by decide, by decide,
   by with_unfolding_all rfl, by with_unfolding_all rfl⟩

theorem baselineScore_cons (a : Arc) (rest : List Arc) (sc : Rat) :
    baselineScore (a :: rest) sc =
      baselineScore rest (if a.ilabel = 0 then a.weight else sc) := rfl

/-- The first loop of `GetNextState` in closed form: it either takes the
first nonzero arc labeled `t` or ends with the untouched `next_state` and
the last escape weight (if any) in the score. -/
theorem scanState_eq (f : Fst) (cs : Nat) (t : Int) :
    ∀ (arcs : List Arc) (ns : Nat) (sc : Rat) (sb eb : Bool),
      scanState f cs t arcs ns sc sb eb =
        match loop1Match arcs t with
        | none => ⟨ns, baselineScore arcs sc, sb, eb⟩
        | some a =>
          ⟨a.nextstate, a.weight,
           if cs = 0 then true else sb,
           if isFinalOne f a.nextstate then true else eb⟩ := by
  intro arcs
  induction arcs with
  | nil => intro ns sc sb eb; rfl
  | cons a rest ih =>
    intro ns sc sb eb
    by_cases h0 : a.ilabel = 0
    · have hm : loop1Match (a :: rest) t = loop1Match rest t := by
        unfold loop1Match
        rw [List.find?_cons_of_neg]
        simp [h0]
      have hb : baselineScore (a :: rest) sc = baselineScore rest a.weight := by
        rw [baselineScore_cons, if_pos h0]
      rw [hm, hb]
      simp only [scanState, if_pos h0]
      exact ih ns a.weight sb eb
    · by_cases ht : a.ilabel = t
      · have ht0 : t ≠ 0 := ht ▸ h0
        have hm : loop1Match (a :: rest) t = some a := by
          unfold loop1Match
          rw [List.find?_cons_of_pos]
          simp [h0, ht, ht0]
        rw [hm]
        simp only [scanState, if_neg h0, if_pos ht]
      · have hm : loop1Match (a :: rest) t = loop1Match rest t := by
          unfold loop1Match
          rw [List.find?_cons_of_neg]
          simp [h0, ht]
        have hb : baselineScore (a :: rest) sc = baselineScore rest sc := by
          rw [baselineScore_cons, if_neg h0]
        rw [hm, hb]
        simp only [scanState, if_neg h0, if_neg ht]
        exact ih ns sc sb eb

/-- The second loop of `GetNextState` in closed form: the first arc labeled
`t` is taken with its weight added to the running score, or nothing changes
and the returned state is 0. -/
theorem scanStart_eq (f : Fst) (cs : Nat) (t : Int) :
    ∀ (arcs : List Arc) (sc : Rat) (sb eb : Bool),
      scanStart f cs t arcs sc sb eb =
        match findMatch arcs t with
        | none => ⟨0, sc, sb, eb⟩
        | some a =>
          ⟨a.nextstate, sc + a.weight,
           if cs = 0 then true else sb,
           if isFinalOne f a.nextstate then true else eb⟩ := by
  intro arcs
  induction arcs with
  | nil => intro sc sb eb; rfl
  | cons a rest ih =>
    intro sc sb eb
    by_cases ht : a.ilabel = t
    · have hm : findMatch (a :: rest) t = some a := by
        unfold findMatch
        rw [List.find?_cons_of_pos]
        simp [ht]
      rw [hm]
      simp only [scanStart, if_pos ht]
    · have hm : findMatch (a :: rest) t = findMatch rest t := by
        unfold findMatch
        rw [List.find?_cons_of_neg]
        simp [ht]
      rw [hm]
      simp only [scanStart, if_neg ht]
      exact ih sc sb eb

theorem baselineScore_no_eps :
    ∀ (arcs : List Arc) (sc : Rat), (∀ a ∈ arcs, a.ilabel ≠ 0) →
      baselineScore arcs sc = sc := by
  intro arcs
  induction arcs with
  | nil => intro sc _; rfl
  | cons a rest ih =>
    intro sc h
    rw [baselineScore_cons, if_neg (h a (List.mem_cons_self a rest))]
    exact ih sc fun x hx => h x (List.mem_cons_of_mem a hx)

/-- C2 amended: if some outgoing arc of `s` is labeled `t` (the first such,
with a nonzero label), `GetNextState` takes it: `next_state` is its
destination, `score_delta` its weight alone, `is_start_boundary` set iff
`s = 0` (otherwise left as passed in), `is_end_boundary` set iff the
destination is accepting (otherwise left as passed in) — and, provided the
destination is not state 0, the lookup stops with no further scan of
state 0. -/
theorem C2_match_arc_taken (g : Fst) (s : Nat) (t : Int) (sc : Rat) (sb eb : Bool)
    (a : Arc) (h1 : loop1Match (arcsFrom g s) t = some a) (h2 : a.nextstate ≠ 0) :
    GetNextState g s t sc sb eb =
      ⟨a.nextstate, a.weight, if s = 0 then true else sb,
       if isFinalOne g a.nextstate then true else eb⟩ := by
  simp only [GetNextState]
  rw [scanState_eq g s t (arcsFrom g s) 0 sc sb eb, h1]
  simp [h2]

theorem C2_match_arc_taken_witness :
    GetNextState graphTwo 0 1 0 false false = ⟨1, 3, true, false⟩ :=
  (C2_match_arc_taken graphTwo 0 1 0 false false ⟨1, 3, 1⟩
    (by with_unfolding_all rfl) (by decide)).trans (by with_unfolding_all rfl)

/-- C4 amended: for a fixed automaton, two calls of `GetNextState` with the
same `(cur_state, word_id)` yield the same `next_state` whatever values the
score and boundary out-parameters hold on entry; the full result is a pure
function of the state, the token and those entry values. -/
theorem C4_next_state_entry_independent (g : Fst) (s : Nat) (t : Int)
    (sc sc2 : Rat) (sb sb2 eb eb2 : Bool) :
    (GetNextState g s t sc sb eb).next_state =
      (GetNextState g s t sc2 sb2 eb2).next_state := by
  simp only [GetNextState]
  rw [scanState_eq g s t (arcsFrom g s) 0 sc sb eb,
      scanState_eq g s t (arcsFrom g s) 0 sc2 sb2 eb2]
  cases hm : loop1Match (arcsFrom g s) t with
  | none =>
    simp only
    rw [scanStart_eq, scanStart_eq]
    cases hf : findMatch (arcsFrom g 0) t <;> simp
  | some a =>
    by_cases hz : a.nextstate = 0
    · simp only [hz]
      simp only [ne_eq, not_true_eq_false, if_false, reduceIte]
      rw [scanStart_eq, scanStart_eq]
      cases hf : findMatch (arcsFrom g 0) t <;> simp
    · simp [hz]

/-- C5 amended: when the scan of `cur_state` finds no labeled arc matching
`word_id` but the fallback scan of state 0 finds one, `GetNextState` returns
that arc's destination; `score_delta` is the escape baseline (the last
escape-arc weight seen at `cur_state`, or the caller's incoming score if
there is none) plus the arc's weight, summed; `is_start_boundary` is set
only if `cur_state = 0` — otherwise it keeps its entry value, even though
the fresh match starts from state 0 — and `is_end_boundary` is set iff the
destination is accepting. -/
theorem C5_fallback_match (g : Fst) (s : Nat) (t : Int) (sc : Rat) (sb eb : Bool)
    (a : Arc) (h1 : loop1Match (arcsFrom g s) t = none)
    (h2 : findMatch (arcsFrom g 0) t = some a) :
    GetNextState g s t sc sb eb =
      ⟨a.nextstate, baselineScore (arcsFrom g s) sc + a.weight,
       if s = 0 then true else sb,
       if isFinalOne g a.nextstate then true else eb⟩ := by
  simp only [GetNextState]
  rw [scanState_eq g s t (arcsFrom g s) 0 sc sb eb, h1]
  simp only [ne_eq, not_true_eq_false, reduceIte]
  rw [scanStart_eq g s t (arcsFrom g 0) (baselineScore (arcsFrom g s) sc) sb eb, h2]

theorem C5_fallback_match_witness :
    GetNextState graphTwo 1 3 0 false false = ⟨2, 0, false, false⟩ :=
  (C5_fallback_match graphTwo 1 3 0 false false ⟨3, 3, 2⟩
    (by with_unfolding_all rfl) (by with_unfolding_all rfl)).trans
    (by with_unfolding_all rfl)

/-- C10: `GetNextState` writes the boundary out-parameters only to set them
to true — an entry value of true survives every path — and when the scanned
state has no escape arc and no arc labeled `word_id`, and state 0 has no arc
labeled `word_id` either, no out-parameter is written at all: the result is
state 0 with the entry values unchanged. -/
theorem C10_out_params_frame (g : Fst) (s : Nat) (t : Int) (sc : Rat) (sb eb : Bool) :
    (sb = true → (GetNextState g s t sc sb eb).is_start_boundary = true) ∧
    (eb = true → (GetNextState g s t sc sb eb).is_end_boundary = true) ∧
    (((arcsFrom g s).all fun a => !(a.ilabel == 0) && !(a.ilabel == t)) = true →
     ((arcsFrom g 0).all fun a => !(a.ilabel == t)) = true →
     GetNextState g s t sc sb eb = ⟨0, sc, sb, eb⟩) := by
  refine ⟨?_, ?_, ?_⟩
  · intro hsb
    subst hsb
    simp only [GetNextState]
    rw [scanState_eq g s t (arcsFrom g s) 0 sc true eb]
    cases hm : loop1Match (arcsFrom g s) t with
    | none =>
      simp only
      rw [scanStart_eq]
      cases hf : findMatch (arcsFrom g 0) t <;> simp
    | some a =>
      by_cases hz : a.nextstate = 0
      · simp only [hz, ne_eq, not_true_eq_false, reduceIte]
        rw [scanStart_eq]
        cases hf : findMatch (arcsFrom g 0) t <;> simp
      · simp [hz]
  · intro heb
    subst heb
    simp only [GetNextState]
    rw [scanState_eq g s t (arcsFrom g s) 0 sc sb true]
    cases hm : loop1Match (arcsFrom g s) t with
    | none =>
      simp only
      rw [scanStart_eq]
      cases hf : findMatch (arcsFrom g 0) t <;> simp
    | some a =>
      by_cases hz : a.nextstate = 0
      · simp only [hz, ne_eq, not_true_eq_false, reduceIte]
        rw [scanStart_eq]
        cases hf : findMatch (arcsFrom g 0) t <;> simp
      · simp [hz]
  · intro hs h0
    have hs2 : ∀ a ∈ arcsFrom g s, a.ilabel ≠ 0 ∧ a.ilabel ≠ t := by
      intro a ha
      have := List.all_eq_true.mp hs a ha
      constructor
      · intro hc; simp [hc] at this
      · intro hc; simp [hc] at this
      -- the two simp goals differ when t = 0; handled uniformly below
    have h02 : ∀ a ∈ arcsFrom g 0, a.ilabel ≠ t := by
      intro a ha
      have := List.all_eq_true.mp h0 a ha
      intro hc; simp [hc] at this
    have hm : loop1Match (arcsFrom g s) t = none := by
      unfold loop1Match
      exact List.find?_eq_none.mpr fun a ha => by simp [(hs2 a ha).1, (hs2 a ha).2]
    have hf : findMatch (arcsFrom g 0) t = none := by
      unfold findMatch
      exact List.find?_eq_none.mpr fun a ha => by simp [h02 a ha]
    simp only [GetNextState]
    rw [scanState_eq g s t (arcsFrom g s) 0 sc sb eb, hm]
    simp only [ne_eq, not_true_eq_false, reduceIte]
    rw [baselineScore_no_eps (arcsFrom g s) sc fun a ha => (hs2 a ha).1]
    rw [scanStart_eq g s t (arcsFrom g 0) sc sb eb, hf]

theorem arcsFrom_def (f : Fst) (s : Nat) : arcsFrom f s = srcFilter f.arcs s := rfl

theorem srcFilter_append (l1 l2 : List (Nat × Arc)) (s : Nat) :
    srcFilter (l1 ++ l2) s = srcFilter l1 s ++ srcFilter l2 s := by
  simp [srcFilter, List.filter_append]

theorem srcFilter_eq_nil (l : List (Nat × Arc)) (s : Nat)
    (h : ∀ pa ∈ l, pa.1 ≠ s) : srcFilter l s = [] := by
  have : l.filter (fun pa => pa.1 == s) = [] :=
    List.filter_eq_nil_iff.mpr fun pa hpa => by simp [h pa hpa]
  simp [srcFilter, this]

/-- `addPhraseGo` in closed form: it creates `grow ws` fresh states, appends
exactly `phraseArcs` and leaves the final states untouched. -/
theorem addPhraseGo_spec (cfg : Cfg) (st : SymTab) :
    ∀ (ws : List Str) (f : Fst) (prev i : Nat) (esc : Rat),
      addPhraseGo cfg st f prev i esc ws =
        ⟨f.numStates + grow ws,
         f.arcs ++ phraseArcs cfg st f.numStates prev i esc ws,
         f.finals⟩ := by
  intro ws
  induction ws with
  | nil => intro f prev i esc; simp [addPhraseGo, phraseArcs, grow]
  | cons w rest ih =>
    intro f prev i esc
    by_cases hr : rest = []
    · subst hr
      by_cases hi : 0 < i <;>
        simp [addPhraseGo, phraseArcs, grow, hi]
    · rw [show addPhraseGo cfg st f prev i esc (w :: rest) =
            addPhraseGo cfg st
              (if 0 < i then
                ⟨f.numStates + 1,
                 (f.arcs ++ [(prev, ⟨findId st w, wordScore cfg i w, f.numStates⟩)]) ++
                   [(prev, ⟨0, -esc, 0⟩)], f.finals⟩
               else
                ⟨f.numStates + 1,
                 f.arcs ++ [(prev, ⟨findId st w, wordScore cfg i w, f.numStates⟩)],
                 f.finals⟩)
              f.numStates (i + 1) (esc + wordScore cfg i w) rest from by
          simp [addPhraseGo, hr]]
      by_cases hj : 0 < i <;>
        simp [hj, ih, phraseArcs, grow, hr, List.append_assoc, Nat.add_assoc,
          Nat.add_comm 1 (grow rest)]

theorem addPhrase_spec (cfg : Cfg) (st : SymTab) (f : Fst) (ws : List Str) :
    addPhrase cfg st f ws =
      ⟨f.numStates + grow ws, f.arcs ++ phraseArcs cfg st f.numStates 0 0 0 ws,
       f.finals⟩ :=
  addPhraseGo_spec cfg st ws f 0 0 0

theorem grow_eq (ws : List Str) (h : ws ≠ []) : grow ws + 1 = ws.length := by
  induction ws with
  | nil => exact absurd rfl h
  | cons w rest ih =>
    by_cases hr : rest = []
    · subst hr; simp [grow]
    · simp only [grow, if_neg hr, List.length_cons]
      have := ih hr
      omega

/-- Sources of the arcs a phrase contributes: the entry state of the call or
a fresh state below the last one created. -/
theorem phraseArcs_src (cfg : Cfg) (st : SymTab) :
    ∀ (ws : List Str) (n prev i : Nat) (esc : Rat),
      ∀ pa ∈ phraseArcs cfg st n prev i esc ws,
        pa.1 = prev ∨ (n ≤ pa.1 ∧ pa.1 + 1 < n + ws.length) := by
  intro ws
  induction ws with
  | nil => intro n prev i esc pa hpa; simp [phraseArcs] at hpa
  | cons w rest ih =>
    intro n prev i esc pa hpa
    simp only [phraseArcs] at hpa
    rcases List.mem_append.mp hpa with hhead | htail
    · rcases List.mem_cons.mp hhead with h1 | h2
      · left; rw [h1]
      · by_cases hi : 0 < i
        · rw [if_pos hi] at h2
          have h3 := List.mem_singleton.mp h2
          left; rw [h3]
        · rw [if_neg hi] at h2
          exact absurd h2 (List.not_mem_nil pa)
    · by_cases hr : rest = []
      · subst hr; simp [phraseArcs] at htail
      · simp only [if_neg hr] at htail
        have hlen : 0 < rest.length := List.length_pos.mpr hr
        rcases ih (n + 1) n (i + 1) (esc + wordScore cfg i w) pa htail with h1 | h2
        · right
          refine ⟨Nat.le_of_eq h1.symm, ?_⟩
          simp only [List.length_cons]
          omega
        · right
          refine ⟨by omega, ?_⟩
          simp only [List.length_cons]
          omega

/-- The arcs a phrase contributes from the state the call enters at: the
labeled arc of the first remaining token, then the escape arc when the token
index is positive. -/
theorem phraseArcs_head_filter (cfg : Cfg) (st : SymTab) (w : Str)
    (rest : List Str) (n prev i : Nat) (esc : Rat) (hpn : prev < n) :
    srcFilter (phraseArcs cfg st n prev i esc (w :: rest)) prev =
      ⟨findId st w, wordScore cfg i w, if rest = [] then 0 else n⟩ ::
      (if 0 < i then [⟨0, -esc, 0⟩] else []) := by
  simp only [phraseArcs]
  rw [srcFilter_append]
  have htail : srcFilter (phraseArcs cfg st (if rest = [] then n else n + 1)
      (if rest = [] then 0 else n) (i + 1) (esc + wordScore cfg i w) rest) prev = [] := by
    by_cases hr : rest = []
    · subst hr; simp [phraseArcs, srcFilter]
    · simp only [if_neg hr]
      apply srcFilter_eq_nil
      intro pa hpa
      rcases phraseArcs_src cfg st rest (n + 1) n (i + 1) _ pa hpa with h1 | h2
      · omega
      · omega
  rw [htail, List.append_nil]
  by_cases hi : 0 < i <;> simp [srcFilter, hi, List.filter]

/-- The two arcs a phrase contributes from its (k+1)-th interior state, for
a call entering below `n`: the labeled arc of token k+1 and the escape arc
carrying minus the running score of all earlier tokens. -/
theorem phraseArcs_step_filter (cfg : Cfg) (st : SymTab) :
    ∀ (k : Nat) (ws : List Str) (n prev i : Nat) (esc : Rat),
      prev < n → k + 1 < ws.length →
      srcFilter (phraseArcs cfg st n prev i esc ws) (n + k) =
        [⟨findId st (ws.getD (k + 1) []), wordScore cfg (i + k + 1) (ws.getD (k + 1) []),
          if k + 2 < ws.length then n + k + 1 else 0⟩,
         ⟨0, -(esc + sumScores cfg i ws (k + 1)), 0⟩] := by
  intro k
  induction k with
  | zero =>
    intro ws n prev i esc hpn hlen
    cases ws with
    | nil => simp at hlen
    | cons w rest =>
      have hr : rest ≠ [] := by
        intro h
        subst h
        simp at hlen
      simp only [phraseArcs, if_neg hr]
      rw [srcFilter_append]
      have hhead : srcFilter
          ((prev, ⟨findId st w, wordScore cfg i w, n⟩) ::
            (if 0 < i then [(prev, (⟨0, -esc, 0⟩ : Arc))] else [])) (n + 0) = [] := by
        apply srcFilter_eq_nil
        intro pa hpa
        rcases List.mem_cons.mp hpa with h1 | h2
        · rw [h1]; simp; omega
        · by_cases hi : 0 < i
          · rw [if_pos hi] at h2
            rw [List.mem_singleton.mp h2]
            simp; omega
          · rw [if_neg hi] at h2
            exact absurd h2 (List.not_mem_nil pa)
      rw [hhead, List.nil_append]
      cases rest with
      | nil => exact absurd rfl hr
      | cons w2 rest2 =>
        rw [show n + 0 = n from rfl]
        rw [phraseArcs_head_filter cfg st w2 rest2 (n + 1) n (i + 1)
          (esc + wordScore cfg i w) (by omega)]
        rw [if_pos (Nat.succ_pos i)]
        simp only [List.getD_cons_succ, List.getD_cons_zero, List.length_cons,
          sumScores, Nat.add_zero, Nat.zero_add, add_zero]
        by_cases hr2 : rest2 = []
        · subst hr2
          rw [if_pos rfl, if_neg (by norm_num)]
        · have hl2 : 0 < rest2.length := List.length_pos.mpr hr2
          rw [if_neg hr2, if_pos (by omega)]
  | succ k ihk =>
    intro ws n prev i esc hpn hlen
    cases ws with
    | nil => simp at hlen
    | cons w rest =>
      have hr : rest ≠ [] := by
        intro h
        subst h
        simp at hlen
      simp only [phraseArcs, if_neg hr]
      rw [srcFilter_append]
      have hhead : srcFilter
          ((prev, ⟨findId st w, wordScore cfg i w, n⟩) ::
            (if 0 < i then [(prev, (⟨0, -esc, 0⟩ : Arc))] else [])) (n + (k + 1)) = [] := by
        apply srcFilter_eq_nil
        intro pa hpa
        rcases List.mem_cons.mp hpa with h1 | h2
        · rw [h1]; simp; omega
        · by_cases hi : 0 < i
          · rw [if_pos hi] at h2
            rw [List.mem_singleton.mp h2]
            simp; omega
          · rw [if_neg hi] at h2
            exact absurd h2 (List.not_mem_nil pa)
      rw [hhead, List.nil_append]
      have hlen2 : k + 1 < rest.length := by
        simp only [List.length_cons] at hlen
        omega
      rw [show n + (k + 1) = (n + 1) + k from by omega]
      rw [ihk rest (n + 1) n (i + 1) (esc + wordScore cfg i w) (by omega) hlen2]
      simp only [List.getD_cons_succ, List.length_cons, sumScores]
      rw [show i + 1 + k + 1 = i + (k + 1) + 1 from by omega]
      rw [show n + 1 + k + 1 = n + (k + 1) + 1 from by omega]
      by_cases hc : k + 2 < rest.length
      · rw [if_pos hc, if_pos (by omega)]
        simp [add_assoc]
      · rw [if_neg hc, if_neg (by omega)]
        simp [add_assoc]

theorem phraseArcs_length_pos (cfg : Cfg) (st : SymTab) :
    ∀ (ws : List Str) (n prev i : Nat) (esc : Rat), 1 ≤ i →
      (phraseArcs cfg st n prev i esc ws).length = 2 * ws.length := by
  intro ws
  induction ws with
  | nil => intro n prev i esc hi; simp [phraseArcs]
  | cons w rest ih =>
    intro n prev i esc hi
    simp only [phraseArcs, if_pos (show 0 < i by omega)]
    rw [List.length_append]
    rw [ih _ _ (i + 1) _ (by omega)]
    simp [List.length_cons]
    omega

theorem phraseArcs_length_zero (cfg : Cfg) (st : SymTab) (ws : List Str)
    (n prev : Nat) (esc : Rat) :
    (phraseArcs cfg st n prev 0 esc ws).length = arcCount ws := by
  cases ws with
  | nil => simp [phraseArcs, arcCount]
  | cons w rest =>
    simp only [phraseArcs, if_neg (show ¬0 < 0 by omega)]
    rw [List.length_append]
    rw [phraseArcs_length_pos cfg st rest _ _ 1 _ (by omega)]
    simp [arcCount, List.length_cons]
    omega

theorem Wf_initFst : Wf initFst := by
  constructor
  · norm_num [initFst]
  · intro pa hpa
    simp [initFst] at hpa

theorem Wf_addPhrase (cfg : Cfg) (st : SymTab) (f : Fst) (ws : List Str)
    (h : Wf f) : Wf (addPhrase cfg st f ws) := by
  rw [addPhrase_spec]
  have h1 := h.1
  constructor
  · simp only
    omega
  · intro pa hpa
    simp only at hpa ⊢
    rcases List.mem_append.mp hpa with hold | hnew
    · have := h.2 pa hold
      omega
    · have hne : ws ≠ [] := by
        intro hws
        subst hws
        simp [phraseArcs] at hnew
      have hlen := grow_eq ws hne
      rcases phraseArcs_src cfg st ws f.numStates 0 0 0 pa hnew with hz | hge
      · omega
      · omega

theorem foldl_addPhrase_finals (cfg : Cfg) (st : SymTab) :
    ∀ (ps : List (List Str)) (f : Fst),
      (List.foldl (addPhrase cfg st) f ps).finals = f.finals := by
  intro ps
  induction ps with
  | nil => intro f; rfl
  | cons p rest ih =>
    intro f
    rw [List.foldl_cons, ih, addPhrase_spec]

theorem foldl_addPhrase_numStates (cfg : Cfg) (st : SymTab) :
    ∀ (ps : List (List Str)) (f : Fst),
      (List.foldl (addPhrase cfg st) f ps).numStates =
        f.numStates + (ps.map grow).sum := by
  intro ps
  induction ps with
  | nil => intro f; simp
  | cons p rest ih =>
    intro f
    rw [List.foldl_cons, ih, addPhrase_spec]
    simp [List.map_cons, List.sum_cons]
    omega

theorem foldl_addPhrase_arcs (cfg : Cfg) (st : SymTab) :
    ∀ (ps : List (List Str)) (f : Fst),
      (List.foldl (addPhrase cfg st) f ps).arcs =
        f.arcs ++ phraseSegs cfg st f.numStates ps := by
  intro ps
  induction ps with
  | nil => intro f; simp [phraseSegs]
  | cons p rest ih =>
    intro f
    rw [List.foldl_cons, ih, addPhrase_spec]
    simp only [phraseSegs, List.append_assoc]

theorem Wf_foldl (cfg : Cfg) (st : SymTab) :
    ∀ (ps : List (List Str)) (f : Fst), Wf f →
      Wf (List.foldl (addPhrase cfg st) f ps) := by
  intro ps
  induction ps with
  | nil => intro f h; exact h
  | cons p rest ih =>
    intro f h
    rw [List.foldl_cons]
    exact ih _ (Wf_addPhrase cfg st f p h)

theorem arcsFrom_addPhrase_frame (cfg : Cfg) (st : SymTab) (f : Fst)
    (ws : List Str) (s : Nat) (h1 : 1 ≤ s) (h2 : s < f.numStates) :
    arcsFrom (addPhrase cfg st f ws) s = arcsFrom f s := by
  rw [arcsFrom_def, arcsFrom_def, addPhrase_spec]
  show srcFilter (f.arcs ++ phraseArcs cfg st f.numStates 0 0 0 ws) s =
    srcFilter f.arcs s
  rw [srcFilter_append]
  have hnil : srcFilter (phraseArcs cfg st f.numStates 0 0 0 ws) s = [] := by
    apply srcFilter_eq_nil
    intro pa hpa
    rcases phraseArcs_src cfg st ws f.numStates 0 0 0 pa hpa with hz | hge
    · omega
    · omega
  rw [hnil, List.append_nil]

theorem arcsFrom_foldl_frame (cfg : Cfg) (st : SymTab) :
    ∀ (ps : List (List Str)) (f : Fst) (s : Nat), 1 ≤ s → s < f.numStates →
      arcsFrom (List.foldl (addPhrase cfg st) f ps) s = arcsFrom f s := by
  intro ps
  induction ps with
  | nil => intro f s h1 h2; rfl
  | cons p rest ih =>
    intro f s h1 h2
    rw [List.foldl_cons]
    rw [ih (addPhrase cfg st f p) s h1 ?_]
    · exact arcsFrom_addPhrase_frame cfg st f p s h1 h2
    · rw [addPhrase_spec]
      simp only
      omega

/-- The phrase loop and its accept-decision mirror agree: the built
automaton is exactly the accepted phrases folded onto the start graph. -/
theorem buildGo_eq_fold (cfg : Cfg) (st : SymTab) (fuel : Nat) :
    ∀ (ctxs : List Str) (f : Fst) (count : Nat),
      buildGo cfg st fuel f count ctxs =
        (acceptedGo cfg st fuel count ctxs).map
          (fun ps => List.foldl (addPhrase cfg st) f ps) := by
  intro ctxs
  induction ctxs with
  | nil => intro f count; rfl
  | cons c rest ih =>
    intro f count
    simp only [buildGo, acceptedGo]
    by_cases h1 : byteSize c > cfg.max_context_length
    · rw [if_pos h1, if_pos h1]
      exact ih f count
    · rw [if_neg h1, if_neg h1]
      by_cases h2 : count + 1 > cfg.max_contexts
      · rw [if_pos h2, if_pos h2]
        rfl
      · rw [if_neg h2, if_neg h2]
        cases hsp : SplitUTF8StringToWords st (trim c) fuel with
        | none => rfl
        | some pr =>
          obtain ⟨words, noOov⟩ := pr
          cases noOov with
          | false =>
            simp only
            exact ih f (count + 1)
          | true =>
            dsimp only
            rw [if_neg (by decide : ¬(true = false)),
              if_neg (by decide : ¬(true = false))]
            rw [ih (addPhrase cfg st f words) (count + 1), Option.map_map]
            rfl

theorem buildOfst_eq_fold (cfg : Cfg) (st : SymTab) (fuel : Nat)
    (ctxs : List Str) (g : Fst) (ps : List (List Str))
    (hg : buildOfst cfg st fuel ctxs = some g)
    (hacc : acceptedWords cfg st fuel ctxs = some ps) :
    g = List.foldl (addPhrase cfg st) initFst ps := by
  have h := buildGo_eq_fold cfg st fuel ctxs initFst 0
  rw [buildOfst] at hg
  rw [h] at hg
  rw [acceptedWords] at hacc
  rw [hacc] at hg
  exact (Option.some.inj hg).symm

/-- In a built automaton, the outgoing arcs of the k-th interior state of an
accepted phrase are exactly the labeled arc of token k and the escape arc
whose weight is minus the sum of the first k token scores. -/
theorem arcsFrom_interior (cfg : Cfg) (st : SymTab) (fuel : Nat) (ctxs : List Str)
    (g : Fst) (pre post : List (List Str)) (ws : List Str) (k : Nat)
    (hg : buildOfst cfg st fuel ctxs = some g)
    (hacc : acceptedWords cfg st fuel ctxs = some (pre ++ ws :: post))
    (hk1 : 1 ≤ k) (hk2 : k < ws.length) :
    arcsFrom g (baseStateOf pre + k - 1) =
      [⟨findId st (ws.getD k []), wordScore cfg k (ws.getD k []),
        if k + 1 < ws.length then baseStateOf pre + k else 0⟩,
       ⟨0, -(sumScores cfg 0 ws k), 0⟩] := by
  have hgf := buildOfst_eq_fold cfg st fuel ctxs g _ hg hacc
  subst hgf
  rw [List.foldl_append, List.foldl_cons]
  set f0 := List.foldl (addPhrase cfg st) initFst pre with hf0
  have hwf0 : Wf f0 := Wf_foldl cfg st pre initFst Wf_initFst
  have h01 : 1 ≤ f0.numStates := hwf0.1
  have hn0 : f0.numStates = baseStateOf pre := by
    rw [hf0, foldl_addPhrase_numStates]
    simp [initFst, baseStateOf]
  have hne : ws ≠ [] := by
    intro h
    subst h
    simp at hk2
  have hgrow := grow_eq ws hne
  have hb1 : 1 ≤ baseStateOf pre := by omega
  have hst : 1 ≤ baseStateOf pre + k - 1 := by omega
  have hlt : baseStateOf pre + k - 1 < (addPhrase cfg st f0 ws).numStates := by
    rw [addPhrase_spec]
    simp only
    omega
  rw [arcsFrom_foldl_frame cfg st post (addPhrase cfg st f0 ws)
    (baseStateOf pre + k - 1) hst hlt]
  rw [arcsFrom_def, addPhrase_spec]
  show srcFilter (f0.arcs ++ phraseArcs cfg st f0.numStates 0 0 0 ws)
    (baseStateOf pre + k - 1) = _
  rw [srcFilter_append]
  have hold : srcFilter f0.arcs (baseStateOf pre + k - 1) = [] := by
    apply srcFilter_eq_nil
    intro pa hpa
    have := hwf0.2 pa hpa
    omega
  rw [hold, List.nil_append]
  rw [show baseStateOf pre + k - 1 = f0.numStates + (k - 1) from by omega]
  rw [phraseArcs_step_filter cfg st (k - 1) ws f0.numStates 0 0 0
    (by omega) (by omega)]
  rw [show k - 1 + 1 = k from by omega]
  rw [show 0 + (k - 1) + 1 = k from by omega]
  rw [show k - 1 + 2 = k + 1 from by omega]
  rw [show f0.numStates + (k - 1) + 1 = baseStateOf pre + k from by omega]
  rw [zero_add]

/-- C3: for every accepted phrase and every k with 1 ≤ k < length, the
escape arc at the state reached after the phrase's first k tokens has weight
minus the sum of those k tokens' scores; and a lookup there with any token
not matching token k returns exactly that cancelling delta — plus, when
state 0 has an arc for the token, that fresh arc's weight added on top — so
the abandoned prefix nets to zero before any new match is credited. -/
theorem C3_escape_cancellation (cfg : Cfg) (st : SymTab) (fuel : Nat)
    (ctxs : List Str) (g : Fst) (pre post : List (List Str)) (ws : List Str)
    (k : Nat) (t : Int) (sc : Rat) (sb eb : Bool)
    (hg : buildOfst cfg st fuel ctxs = some g)
    (hacc : acceptedWords cfg st fuel ctxs = some (pre ++ ws :: post))
    (hk1 : 1 ≤ k) (hk2 : k < ws.length)
    (ht : t ≠ findId st (ws.getD k [])) :
    arcsFrom g (baseStateOf pre + k - 1) =
      [⟨findId st (ws.getD k []), wordScore cfg k (ws.getD k []),
        if k + 1 < ws.length then baseStateOf pre + k else 0⟩,
       ⟨0, -(sumScores cfg 0 ws k), 0⟩] ∧
    GetNextState g (baseStateOf pre + k - 1) t sc sb eb =
      (match findMatch (arcsFrom g 0) t with
       | none => ⟨0, -(sumScores cfg 0 ws k), sb, eb⟩
       | some a =>
         ⟨a.nextstate, -(sumScores cfg 0 ws k) + a.weight, sb,
          if isFinalOne g a.nextstate then true else eb⟩) := by
  have harc := arcsFrom_interior cfg st fuel ctxs g pre post ws k hg hacc hk1 hk2
  refine ⟨harc, ?_⟩
  have hσ : ¬(baseStateOf pre + k - 1 = 0) := by
    have hb1 : 1 ≤ baseStateOf pre := by
      simp [baseStateOf]
    omega
  simp only [GetNextState]
  rw [scanState_eq g (baseStateOf pre + k - 1) t
    (arcsFrom g (baseStateOf pre + k - 1)) 0 sc sb eb]
  rw [harc]
  have hl1 : loop1Match
      [⟨findId st (ws.getD k []), wordScore cfg k (ws.getD k []),
        if k + 1 < ws.length then baseStateOf pre + k else 0⟩,
       (⟨0, -(sumScores cfg 0 ws k), 0⟩ : Arc)] t = none := by
    unfold loop1Match
    apply List.find?_eq_none.mpr
    intro a ha
    rcases List.mem_cons.mp ha with h1 | h2
    · rw [h1]
      intro hcontra
      have h3 := (Bool.and_eq_true _ _).mp hcontra
      exact ht (eq_of_beq h3.2).symm
    · rw [List.mem_singleton.mp h2]
      simp
  rw [hl1]
  have hbase : baselineScore
      [⟨findId st (ws.getD k []), wordScore cfg k (ws.getD k []),
        if k + 1 < ws.length then baseStateOf pre + k else 0⟩,
       (⟨0, -(sumScores cfg 0 ws k), 0⟩ : Arc)] sc = -(sumScores cfg 0 ws k) := by
    simp [baselineScore, List.foldl]
  rw [hbase]
  simp only [ne_eq, not_true_eq_false, reduceIte]
  rw [scanStart_eq g (baseStateOf pre + k - 1) t (arcsFrom g 0)
    (-(sumScores cfg 0 ws k)) sb eb]
  cases hf : findMatch (arcsFrom g 0) t with
  | none => rfl
  | some a => simp [if_neg hσ]

theorem C3_escape_cancellation_witness :
    arcsFrom graphTwo 1 = [⟨2, 4, 0⟩, ⟨0, -3, 0⟩] ∧
    GetNextState graphTwo 1 3 0 false false = ⟨2, 0, false, false⟩ := by
  have h := C3_escape_cancellation cfgMain tabCjk 20
    [[0x4E00, 0x4E01], [0x4E02, 0x4E03]] graphTwo []
    [[[0x4E02], [0x4E03]]] [[0x4E00], [0x4E01]] 1 3 0 false false
    (by with_unfolding_all rfl) (by with_unfolding_all rfl)
    (by decide) (by decide) (by decide)
  refine ⟨h.1.trans (by with_unfolding_all rfl), h.2.trans ?_⟩
  with_unfolding_all rfl

/-- Position of an accepted phrase's first labeled arc in the global arc
list: right after the arcs of the phrases added before it. -/
theorem phraseSegs_get (cfg : Cfg) (st : SymTab) :
    ∀ (pre : List (List Str)) (n : Nat) (w : Str) (rest : List Str)
      (post : List (List Str)),
      (phraseSegs cfg st n (pre ++ (w :: rest) :: post)).get?
          ((pre.map arcCount).sum) =
        some (0, ⟨findId st w, wordScore cfg 0 w,
                  if rest = [] then 0 else n + (pre.map grow).sum⟩) := by
  intro pre
  induction pre with
  | nil =>
    intro n w rest post
    simp only [List.nil_append, phraseSegs, List.map_nil, List.sum_nil]
    simp only [phraseArcs, if_neg (show ¬0 < 0 by omega)]
    by_cases hr : rest = [] <;> simp [hr]
  | cons p pre2 ih =>
    intro n w rest post
    simp only [List.cons_append, phraseSegs, List.map_cons, List.sum_cons]
    rw [List.get?_append_right (by rw [phraseArcs_length_zero]; omega)]
    rw [phraseArcs_length_zero]
    rw [show arcCount p + (pre2.map arcCount).sum - arcCount p =
      (pre2.map arcCount).sum from by omega]
    rw [List.append_eq]
    rw [ih (n + grow p) w rest post]
    by_cases hr : rest = [] <;> simp [hr, Nat.add_assoc]

/-- C9: in a built automaton, the arc for the i-th token (0-indexed) of an
accepted phrase carries the score `i * incremental_context_score +
context_score` when the token is alphabetic or begins with the first byte of
the word-boundary marker, and that same value multiplied by the token's
codepoint length otherwise: for i = 0 it is the phrase's arc out of state 0,
for i ≥ 1 the labeled arc out of the phrase's (i-1)-th interior state. -/
theorem C9_token_arc_scores (cfg : Cfg) (st : SymTab) (fuel : Nat)
    (ctxs : List Str) (g : Fst) (pre post : List (List Str)) (ws : List Str)
    (i : Nat)
    (hg : buildOfst cfg st fuel ctxs = some g)
    (hacc : acceptedWords cfg st fuel ctxs = some (pre ++ ws :: post))
    (hi : i < ws.length) :
    (i = 0 → g.arcs.get? (segStartOf pre) =
      some (0, ⟨findId st (ws.getD 0 []),
        if isAlphaS (ws.getD 0 []) || firstByte (ws.getD 0 []) = 0xE2 then
          (0 : Rat) * cfg.incremental_context_score + cfg.context_score
        else
          ((0 : Rat) * cfg.incremental_context_score + cfg.context_score) *
            ((ws.getD 0 []).length : Rat),
        if 1 < ws.length then baseStateOf pre else 0⟩)) ∧
    (1 ≤ i → arcsFrom g (baseStateOf pre + i - 1) =
      [⟨findId st (ws.getD i []),
        if isAlphaS (ws.getD i []) || firstByte (ws.getD i []) = 0xE2 then
          (i : Rat) * cfg.incremental_context_score + cfg.context_score
        else
          ((i : Rat) * cfg.incremental_context_score + cfg.context_score) *
            ((ws.getD i []).length : Rat),
        if i + 1 < ws.length then baseStateOf pre + i else 0⟩,
       ⟨0, -(sumScores cfg 0 ws i), 0⟩]) := by
  constructor
  · intro hi0
    subst hi0
    have hgf := buildOfst_eq_fold cfg st fuel ctxs g _ hg hacc
    subst hgf
    rw [foldl_addPhrase_arcs]
    cases ws with
    | nil => simp at hi
    | cons w rest =>
      show (initFst.arcs ++
        phraseSegs cfg st initFst.numStates (pre ++ (w :: rest) :: post)).get?
          (segStartOf pre) = _
      rw [show initFst.arcs = [] from rfl, List.nil_append]
      rw [show initFst.numStates = 1 from rfl]
      rw [show segStartOf pre = (pre.map arcCount).sum from rfl]
      rw [phraseSegs_get cfg st pre 1 w rest post]
      show _ = some (0, ⟨findId st w, wordScore cfg 0 w, _⟩)
      by_cases hr : rest = []
      · subst hr
        rw [if_pos rfl, if_neg (by simp)]
      · rw [if_neg hr, if_pos (by simp [List.length_cons, List.length_pos.mpr hr])]
        rfl
  · intro hi1
    rw [arcsFrom_interior cfg st fuel ctxs g pre post ws i hg hacc hi1 hi]
    rfl

theorem C9_token_arc_scores_witness :
    graphTwo.arcs.get? 3 = some (0, ⟨3, 3, 2⟩) ∧
    arcsFrom graphTwo 2 = [⟨4, 4, 0⟩, ⟨0, -3, 0⟩] := by
  have h0 := C9_token_arc_scores cfgMain tabCjk 20
    [[0x4E00, 0x4E01], [0x4E02, 0x4E03]] graphTwo [[[0x4E00], [0x4E01]]]
    [] [[0x4E02], [0x4E03]] 0
    (by with_unfolding_all rfl) (by with_unfolding_all rfl) (by decide)
  have h1 := C9_token_arc_scores cfgMain tabCjk 20
    [[0x4E00, 0x4E01], [0x4E02, 0x4E03]] graphTwo [[[0x4E00], [0x4E01]]]
    [] [[0x4E02], [0x4E03]] 1
    (by with_unfolding_all rfl) (by with_unfolding_all rfl) (by decide)
  refine ⟨(h0.1 rfl).trans ?_, (h1.2 (by decide)).trans ?_⟩
  · with_unfolding_all rfl
  · with_unfolding_all rfl

theorem buildGo_take (cfg : Cfg) (st : SymTab) (fuel : Nat) :
    ∀ (ctxs : List Str) (f : Fst) (count : Nat), count ≤ cfg.max_contexts →
      buildGo cfg st fuel f count ctxs =
        buildGo cfg st fuel f count
          ((ctxs.filter fun c => byteSize c ≤ cfg.max_context_length).take
            (cfg.max_contexts - count)) := by
  intro ctxs
  induction ctxs with
  | nil => intro f count hc; simp [List.filter]
  | cons c rest ih =>
    intro f count hc
    by_cases h1 : byteSize c > cfg.max_context_length
    · rw [show (c :: rest).filter (fun x => byteSize x ≤ cfg.max_context_length) =
          rest.filter (fun x => byteSize x ≤ cfg.max_context_length) from by
        rw [List.filter_cons_of_neg]
        simp
        omega]
      rw [show buildGo cfg st fuel f count (c :: rest) =
          buildGo cfg st fuel f count rest from by
        simp only [buildGo, if_pos h1]]
      exact ih f count hc
    · rw [show (c :: rest).filter (fun x => byteSize x ≤ cfg.max_context_length) =
          c :: rest.filter (fun x => byteSize x ≤ cfg.max_context_length) from by
        rw [List.filter_cons_of_pos]
        simp
        omega]
      by_cases h2 : count + 1 > cfg.max_contexts
      · have hcm : count = cfg.max_contexts := by omega
        rw [show cfg.max_contexts - count = 0 from by omega]
        rw [List.take_zero]
        simp only [buildGo, if_neg h1, if_pos h2]
      · have hsub : cfg.max_contexts - count = (cfg.max_contexts - (count + 1)) + 1 := by
          omega
        rw [hsub, List.take_succ_cons]
        simp only [buildGo, if_neg h1, if_neg h2]
        cases hsp : SplitUTF8StringToWords st (trim c) fuel with
        | none => rfl
        | some pr =>
          obtain ⟨words, noOov⟩ := pr
          cases noOov with
          | false =>
            dsimp only
            rw [if_pos rfl, if_pos rfl]
            exact ih f (count + 1) (by omega)
          | true =>
            dsimp only
            rw [if_neg (by decide : ¬(true = false)),
              if_neg (by decide : ¬(true = false))]
            exact ih (addPhrase cfg st f words) (count + 1) (by omega)

/-- C7 amended: length-skipped phrases do not consume the `max_contexts`
budget, but OOV-skipped phrases do — the loop counts every phrase that
passes the length check, accepted or not, and stops at the
(max_contexts+1)-th such phrase. The automaton therefore equals the one
built from just the first `max_contexts` length-passing phrases. -/
theorem C7_budget_counts_length_passing (cfg : Cfg) (st : SymTab) (fuel : Nat)
    (ctxs : List Str) :
    buildOfst cfg st fuel ctxs =
      buildOfst cfg st fuel
        ((ctxs.filter fun c => byteSize c ≤ cfg.max_context_length).take
          cfg.max_contexts) := by
  have h := buildGo_take cfg st fuel ctxs initFst 0 (Nat.zero_le _)
  rw [Nat.sub_zero] at h
  rw [buildOfst, h]
  rfl

theorem buildGo_skip_long (cfg : Cfg) (st : SymTab) (fuel : Nat) (p : Str)
    (post : List Str) (hp : byteSize p > cfg.max_context_length) :
    ∀ (pre : List Str) (f : Fst) (count : Nat),
      buildGo cfg st fuel f count (pre ++ p :: post) =
        buildGo cfg st fuel f count (pre ++ post) := by
  intro pre
  induction pre with
  | nil =>
    intro f count
    simp only [List.nil_append]
    rw [show buildGo cfg st fuel f count (p :: post) =
        buildGo cfg st fuel f count post from by
      simp only [buildGo, if_pos hp]]
  | cons c pre2 ih =>
    intro f count
    simp only [List.cons_append, buildGo]
    by_cases h1 : byteSize c > cfg.max_context_length
    · rw [if_pos h1, if_pos h1]
      exact ih f count
    · rw [if_neg h1, if_neg h1]
      by_cases h2 : count + 1 > cfg.max_contexts
      · rw [if_pos h2, if_pos h2]
      · rw [if_neg h2, if_neg h2]
        cases hsp : SplitUTF8StringToWords st (trim c) fuel with
        | none => rfl
        | some pr =>
          obtain ⟨words, noOov⟩ := pr
          cases noOov with
          | false =>
            dsimp only
            rw [if_pos rfl, if_pos rfl]
            exact ih f (count + 1)
          | true =>
            dsimp only
            rw [if_neg (by decide : ¬(true = false)),
              if_neg (by decide : ¬(true = false))]
            exact ih (addPhrase cfg st f words) (count + 1)

/-- C8 amended: `BuildContextGraph` skips a phrase exactly when its length
measured in BYTES (`context.size()`) exceeds `max_context_length`: a phrase
over the byte limit contributes nothing to the automaton wherever it stands
in the list, while a fully resolved phrase within the byte limit (and within
the budget) is added to the automaton. -/
theorem C8_byte_length_decides (cfg : Cfg) (st : SymTab) (fuel : Nat)
    (p : Str) (post : List Str) (ws : List Str) :
    (byteSize p > cfg.max_context_length → ∀ pre : List Str,
      buildOfst cfg st fuel (pre ++ p :: post) =
        buildOfst cfg st fuel (pre ++ post)) ∧
    (byteSize p ≤ cfg.max_context_length → 1 ≤ cfg.max_contexts →
      SplitUTF8StringToWords st (trim p) fuel = some (ws, true) →
      buildOfst cfg st fuel [p] = some (addPhrase cfg st initFst ws)) := by
  constructor
  · intro hp pre
    exact buildGo_skip_long cfg st fuel p post hp pre initFst 0
  · intro hp hm hsp
    rw [buildOfst]
    simp only [buildGo, if_neg (show ¬byteSize p > cfg.max_context_length by omega),
      if_neg (show ¬0 + 1 > cfg.max_contexts by omega), hsp]
    rfl

end Theorems

end Wenet
